import Mathlib

/-!
Verification of the schelm stream splitter (`main.go`).

The program reads a concatenated YAML stream, splits it on the fixed
delimiter `"---\n# Source: "`, splits each record at its first newline into
a source path and a content body, and materializes each body under an
output directory, appending with a YAML document marker when the
destination file already exists.

The embedding below models byte strings as `List Char`, the filesystem as
an association list from resolved paths to entries (regular file with
content, or directory), and the fallible filesystem operations as
`Except String` computations.
-/

deriving instance DecidableEq for Except

namespace Schelm

/-- The constant `yamlSeparator = "---\n# Source: "` from `main.go`. -/
def yamlSeparator : List Char :=
  ['-', '-', '-', '\n', '#', ' ', 'S', 'o', 'u', 'r', 'c', 'e', ':', ' ']

/-- Index of the first occurrence of `yamlSeparator` in `s`
(`bytes.Index(data, separatorBytes)` in `scanYamlSpecs`). -/
def findOcc : List Char → Option Nat
  | [] => none
  | c :: rest =>
    if yamlSeparator.isPrefixOf (c :: rest) then some 0
    else (findOcc rest).map (· + 1)

/-- The idealized (unbounded) token sequence of `bufio.Scanner` driven by
`scanYamlSpecs`: each delimiter occurrence ends a token (the delimiter
itself is consumed), the final non-empty remainder is a last token, and an
empty remainder at end of stream yields no token. This ignores the 1 MiB
maximum token size; it emits a superset of the tokens the program emits
(see `scanWithBound_tokens_in_tokenize`), which only strengthens the
universally quantified no-delimiter invariant proved about it. -/
def tokenize : List Char → List (List Char)
  | [] => []
  | c :: rest =>
    match findOcc (c :: rest) with
    | some i => (c :: rest).take i :: tokenize ((c :: rest).drop (i + yamlSeparator.length))
    | none => [c :: rest]
termination_by s => s.length
decreasing_by
  have h14 : yamlSeparator.length = 14 := rfl
  simp [List.length_drop]
  omega

/-- `splitSpec` from `main.go`: split a token at its first newline; if none
exists the whole token is the source and the content is empty. -/
def splitSpec : List Char → List Char × List Char
  | [] => ([], [])
  | c :: rest =>
    if c = '\n' then ([], rest)
    else
      let p := splitSpec rest
      (c :: p.1, p.2)

/-- Split a path into its `/`-separated segments (every slash separates). -/
def splitSlash : List Char → List (List Char)
  | [] => [[]]
  | c :: rest =>
    if c = '/' then [] :: splitSlash rest
    else
      match splitSlash rest with
      | [] => [[c]]
      | s :: ss => (c :: s) :: ss

/-- One step of the `path.Clean` segment stack: skip empty and `.` segments,
resolve `..` against the stack, push ordinary segments. -/
def cleanStep (rooted : Bool) (stack : List (List Char)) (seg : List Char) :
    List (List Char) :=
  if seg = [] ∨ seg = ['.'] then stack
  else if seg = ['.', '.'] then
    match stack with
    | [] => if rooted then [] else [['.', '.']]
    | top :: rest => if top = ['.', '.'] then seg :: top :: rest else rest
  else seg :: stack

/-- Join path segments with `/`. -/
def joinSlash : List (List Char) → List Char
  | [] => []
  | [s] => s
  | s :: rest => s ++ '/' :: joinSlash rest

/-- Go's `path.Clean`: resolve `.`, `..` and repeated slashes lexically. -/
def pathClean (p : List Char) : List Char :=
  if p = [] then ['.']
  else
    let rooted := p.head? = some '/'
    let parts := ((splitSlash p).foldl (cleanStep (decide rooted)) []).reverse
    if parts = [] then (if rooted then ['/'] else ['.'])
    else (if rooted then ['/'] else []) ++ joinSlash parts

/-- Go's `path.Join` on two elements, as called by `writeOrAppendSpec`. -/
def pathJoin (a b : List Char) : List Char :=
  if a = [] ∧ b = [] then []
  else if a = [] then pathClean b
  else pathClean (a ++ '/' :: b)

/-- The prefix of `p` up to and including its last `/` (empty if no slash),
i.e. the `dir` component of Go's `path.Split`. -/
def dropAfterLastSlash : List Char → List Char
  | [] => []
  | c :: rest =>
    let t := dropAfterLastSlash rest
    if t = [] then (if c = '/' then ['/'] else []) else c :: t

/-- Go's `path.Dir`. -/
def pathDir (p : List Char) : List Char :=
  pathClean (dropAfterLastSlash p)

/-- A filesystem entry: a regular file with its content, or a directory. -/
inductive Entry where
  | file (content : List Char)
  | dir
deriving DecidableEq

/-- The filesystem: an association list from resolved paths to entries;
the first binding for a path shadows later ones. -/
abbrev FS := List (List Char × Entry)

/-- First-match lookup in the filesystem. -/
def lookupFS : FS → List Char → Option Entry
  | [], _ => none
  | (q, e) :: rest, p => if p = q then some e else lookupFS rest p

/-- Bind `p` to `e`, shadowing any previous binding. -/
def setFS (fs : FS) (p : List Char) (e : Entry) : FS :=
  (p, e) :: fs

/-- `strings.HasSuffix(content, "\n")`. -/
def hasTrailingNewline (content : List Char) : Bool :=
  content.getLast? = some '\n'

/-- The base append marker `"\n---\n"` from `writeOrAppendSpec`. -/
def baseSeparator : List Char := ['\n', '-', '-', '-', '\n']

/-- The separator actually written in the append case of
`writeOrAppendSpec`: `"\n---\n"`, with an extra leading newline when the
incoming content does not end with a newline. -/
def sepFor (content : List Char) : List Char :=
  if hasTrailingNewline content then baseSeparator else '\n' :: baseSeparator

/-- Create a single directory entry: error if the path exists as a regular
file, no-op if it is already a directory. -/
def mkdirEntry (fs : FS) (p : List Char) : Except String FS :=
  match lookupFS fs p with
  | some (.file _) => .error "mkdir: not a directory"
  | some .dir => .ok fs
  | none => .ok (setFS fs p .dir)

/-- `os.MkdirAll`: create the parent chain, then the directory itself.
The fuel bounds the parent chain (`pathDir` reaches a fixpoint). -/
def mkdirAllAux : Nat → FS → List Char → Except String FS
  | 0, fs, _ => .ok fs
  | fuel + 1, fs, p =>
    let parent := pathDir p
    if parent = p then mkdirEntry fs p
    else
      match mkdirAllAux fuel fs parent with
      | .error e => .error e
      | .ok fs1 => mkdirEntry fs1 p

/-- `os.MkdirAll(dir, dirPermissions)`. -/
def mkdirAll (fs : FS) (p : List Char) : Except String FS :=
  mkdirAllAux (p.length + 2) fs p

/-- `writeOrAppendSpec` from `main.go`: resolve the destination, create its
parent directories, then either create the file with the content, append
separator-plus-content to an existing regular file, or fail if the
destination is a directory. -/
def writeOrAppendSpec (fs : FS) (outputDir source content : List Char) :
    Except String FS :=
  let destinationFile := pathJoin outputDir source
  let dir := pathDir destinationFile
  match mkdirAll fs dir with
  | .error e => .error e
  | .ok fs1 =>
    match lookupFS fs1 destinationFile with
    | none => .ok (setFS fs1 destinationFile (.file content))
    | some (.file old) =>
        .ok (setFS fs1 destinationFile (.file (old ++ sepFor content ++ content)))
    | some .dir => .error "open: is a directory"

/-- Warning logged by `processInput` when an empty source path is skipped. -/
def warnSkip : String := "Warning: Skipping empty source path in input."

/-- Warning logged by `processInput` when the stream yields no token. -/
def warnEmpty : String := "Warning: Input stream is empty or contains no separators."

/-- Outcome of a run: the resulting filesystem, the warnings logged in
order, and the fatal error if one aborted the run. -/
structure RunResult where
  fs : FS
  warnings : List String
  err : Option String
deriving DecidableEq

/-- The `for scanner.Scan()` loop of `processInput`: split each token,
skip empty source paths with a warning, write the rest, and abort on the
first writer error. -/
def processRecords (outputDir : List Char) (fs : FS) :
    List (List Char) → RunResult
  | [] => ⟨fs, [], none⟩
  | token :: rest =>
    if (splitSpec token).1 = [] then
      let r := processRecords outputDir fs rest
      ⟨r.fs, warnSkip :: r.warnings, r.err⟩
    else
      match writeOrAppendSpec fs outputDir (splitSpec token).1 (splitSpec token).2 with
      | .error e => ⟨fs, [], some e⟩
      | .ok fs1 => processRecords outputDir fs1 rest

/-- `bufferSize = 1048576` from `main.go`, installed as the scanner's
maximum token size by `scanner.Buffer(make([]byte, bufio.MaxScanTokenSize),
bufferSize)`. -/
def maxTokenSize : Nat := 1048576

/-- The text of `bufio.ErrTooLong`. -/
def errTooLong : String := "bufio.Scanner: token too long"

/-- Prefix of the error wrapping a scan failure on the first token. -/
def readErrPrefix : String := "error reading initial input: "

/-- Prefix of the error wrapping a scan failure after the first token. -/
def scanErrPrefix : String := "error scanning input stream: "

/-- The bounded scanner of `processInput`: `bufio.Scanner` with
`scanYamlSpecs` and a `maxTokenSize`-byte buffer. A token is emitted when
a full delimiter occurrence lies inside the buffered window
(`s.take maxTokenSize`); with no occurrence, a remainder shorter than the
window is emitted at end of stream, while a remainder that fills the
window makes the scanner fail with `bufio.ErrTooLong`. Returns the emitted
tokens and the terminal scan error, if any. -/
def scanWithBound : List Char → List (List Char) × Option String
  | [] => ([], none)
  | c :: rest =>
    match findOcc ((c :: rest).take maxTokenSize) with
    | some i =>
      let p := scanWithBound ((c :: rest).drop (i + yamlSeparator.length))
      ((c :: rest).take i :: p.1, p.2)
    | none =>
      if (c :: rest).length < maxTokenSize then ([c :: rest], none)
      else ([], some errTooLong)
termination_by s => s.length
decreasing_by
  have h14 : yamlSeparator.length = 14 := rfl
  simp [List.length_drop]
  omega

/-- `processInput` from `main.go`: discard the first token (the preamble);
if the stream yields no token at all, warn and succeed (empty input) or
fail with the wrapped read error (first `Scan` failed with a scanner
error); otherwise process the remaining tokens, returning the first
writer error, else the wrapped terminal scan error, else success. -/
def processInput (outputDir : List Char) (fs : FS) (input : List Char) :
    RunResult :=
  match scanWithBound input with
  | ([], none) => ⟨fs, [warnEmpty], none⟩
  | ([], some e) => ⟨fs, [], some (readErrPrefix ++ e)⟩
  | (_ :: rest, scanErr) =>
    let r := processRecords outputDir fs rest
    match r.err with
    | some _ => r
    | none =>
      match scanErr with
      | some e => ⟨r.fs, r.warnings, some (scanErrPrefix ++ e)⟩
      | none => r

/-- A record targets destination `d`: its source path is non-empty and
resolves (joined under `root`) to `d`. -/
def hits (root d : List Char) (r : List Char) : Prop :=
  (splitSpec r).1 ≠ [] ∧ pathJoin root (splitSpec r).1 = d

instance (root d r : List Char) : Decidable (hits root d r) := by
  unfold hits; infer_instance

/-- `fs'` extends `fs` only by directory entries at previously absent
paths; every existing binding is preserved. -/
def Preserves (fs fs' : FS) : Prop :=
  ∀ q, lookupFS fs' q = lookupFS fs q ∨
    (lookupFS fs q = none ∧ lookupFS fs' q = some .dir)

theorem prefixOf_append_right (l t : List Char) :
    l.isPrefixOf (l ++ t) = true := by
  induction l with
  | nil => simp [List.isPrefixOf]
  | cons c rest ih => simp [List.isPrefixOf, ih]

theorem prefixOf_iff (l t : List Char) :
    l.isPrefixOf t = true ↔ ∃ w, l ++ w = t := by
  constructor
  · intro h
    induction l generalizing t with
    | nil => exact ⟨t, rfl⟩
    | cons c rest ih =>
      cases t with
      | nil => simp [List.isPrefixOf] at h
      | cons b bs =>
        simp only [List.isPrefixOf, Bool.and_eq_true, beq_iff_eq] at h
        obtain ⟨rfl, h2⟩ := h
        obtain ⟨w, hw⟩ := ih bs h2
        exact ⟨w, by simp [hw]⟩
  · rintro ⟨w, rfl⟩
    exact prefixOf_append_right l w

theorem yamlSeparator_ne_nil : yamlSeparator ≠ [] := by decide

theorem yamlSeparator_length : yamlSeparator.length = 14 := rfl

theorem findOcc_none_no_occ {s : List Char} (h : findOcc s = none) :
    ∀ j, yamlSeparator.isPrefixOf (s.drop j) = false := by
  induction s with
  | nil =>
    intro j
    simp only [List.drop_nil]
    cases hp : yamlSeparator.isPrefixOf [] with
    | false => rfl
    | true =>
      obtain ⟨w, hw⟩ := (prefixOf_iff _ _).mp hp
      exact absurd (List.append_eq_nil.mp hw).1 yamlSeparator_ne_nil
  | cons c rest ih =>
    intro j
    rw [findOcc] at h
    cases hp : yamlSeparator.isPrefixOf (c :: rest) with
    | true => rw [hp] at h; simp at h
    | false =>
      rw [hp] at h
      simp only [Bool.false_eq_true, if_false, Option.map_eq_none'] at h
      cases j with
      | zero => exact hp
      | succ j => exact ih h j

theorem findOcc_some_occ {s : List Char} {i : Nat} (h : findOcc s = some i) :
    yamlSeparator.isPrefixOf (s.drop i) = true := by
  induction s generalizing i with
  | nil => simp [findOcc] at h
  | cons c rest ih =>
    rw [findOcc] at h
    cases hp : yamlSeparator.isPrefixOf (c :: rest) with
    | true =>
      rw [hp] at h
      simp only [if_true, Option.some.injEq] at h
      subst h
      exact hp
    | false =>
      rw [hp] at h
      simp only [Bool.false_eq_true, if_false] at h
      rcases hr : findOcc rest with _ | i'
      · rw [hr] at h; simp at h
      · rw [hr] at h
        simp only [Option.map_some', Option.some.injEq] at h
        subst h
        simpa using ih hr

theorem findOcc_some_min {s : List Char} {i : Nat} (h : findOcc s = some i) :
    ∀ j, j < i → yamlSeparator.isPrefixOf (s.drop j) = false := by
  induction s generalizing i with
  | nil => simp [findOcc] at h
  | cons c rest ih =>
    rw [findOcc] at h
    cases hp : yamlSeparator.isPrefixOf (c :: rest) with
    | true =>
      rw [hp] at h
      simp only [if_true, Option.some.injEq] at h
      subst h
      intro j hj
      omega
    | false =>
      rw [hp] at h
      simp only [Bool.false_eq_true, if_false] at h
      rcases hr : findOcc rest with _ | i'
      · rw [hr] at h; simp at h
      · rw [hr] at h
        simp only [Option.map_some', Option.some.injEq] at h
        subst h
        intro j hj
        cases j with
        | zero => exact hp
        | succ j => simpa using ih hr j (by omega)

theorem findOcc_some_bound {s : List Char} {i : Nat} (h : findOcc s = some i) :
    i + yamlSeparator.length ≤ s.length := by
  have hocc := findOcc_some_occ h
  obtain ⟨w, hw⟩ := (prefixOf_iff _ _).mp hocc
  have hlen : (s.drop i).length = yamlSeparator.length + w.length := by
    rw [← hw, List.length_append]
  have hd : (s.drop i).length = s.length - i := List.length_drop i s
  have h14 : yamlSeparator.length = 14 := yamlSeparator_length
  omega

theorem findOcc_of_prefixOf {s : List Char}
    (h : yamlSeparator.isPrefixOf s = true) : findOcc s = some 0 := by
  cases s with
  | nil =>
    obtain ⟨w, hw⟩ := (prefixOf_iff _ _).mp h
    exact absurd (List.append_eq_nil.mp hw).1 yamlSeparator_ne_nil
  | cons c rest => simp [findOcc, h]

theorem tokenize_nil : tokenize [] = [] := by
  simp [tokenize]

theorem tokenize_some {s : List Char} {i : Nat} (h : findOcc s = some i) :
    tokenize s = s.take i :: tokenize (s.drop (i + yamlSeparator.length)) := by
  cases s with
  | nil => simp [findOcc] at h
  | cons c rest =>
    rw [tokenize, h]

theorem tokenize_none {s : List Char} (h : findOcc s = none) :
    tokenize s = if s = [] then [] else [s] := by
  cases s with
  | nil => simp [tokenize]
  | cons c rest =>
    rw [tokenize, h]
    simp

theorem occ_iff_contains (t : List Char) :
    (∃ j, yamlSeparator.isPrefixOf (t.drop j) = true) ↔
      ∃ u v, u ++ yamlSeparator ++ v = t := by
  constructor
  · rintro ⟨j, hj⟩
    obtain ⟨w, hw⟩ := (prefixOf_iff _ _).mp hj
    exact ⟨t.take j, w, by rw [List.append_assoc, hw, List.take_append_drop]⟩
  · rintro ⟨u, v, rfl⟩
    refine ⟨u.length, ?_⟩
    rw [List.append_assoc, List.drop_left]
    exact prefixOf_append_right _ _

theorem occ_of_take_occ {s : List Char} {i j : Nat}
    (h : yamlSeparator.isPrefixOf ((s.take i).drop j) = true) :
    j < i ∧ yamlSeparator.isPrefixOf (s.drop j) = true := by
  obtain ⟨w, hw⟩ := (prefixOf_iff _ _).mp h
  have hj : j < i := by
    have hl := congrArg List.length hw
    simp only [List.length_append, List.length_drop, List.length_take,
      yamlSeparator_length] at hl
    omega
  refine ⟨hj, (prefixOf_iff _ _).mpr ?_⟩
  have hdt : (s.take i).drop j = (s.drop j).take (i - j) := List.drop_take i j s
  have htake : (s.drop j).take (i - j) = yamlSeparator ++ w := by rw [← hdt, hw]
  refine ⟨w ++ (s.drop j).drop (i - j), ?_⟩
  calc yamlSeparator ++ (w ++ (s.drop j).drop (i - j))
      = (yamlSeparator ++ w) ++ (s.drop j).drop (i - j) := by
        rw [List.append_assoc]
    _ = (s.drop j).take (i - j) ++ (s.drop j).drop (i - j) := by rw [htake]
    _ = s.drop j := List.take_append_drop _ _

theorem tokenize_no_occ_aux :
    ∀ (n : Nat) (s : List Char), s.length ≤ n → ∀ t ∈ tokenize s, ∀ j,
      yamlSeparator.isPrefixOf (t.drop j) = false := by
  intro n
  induction n with
  | zero =>
    intro s hs t ht j
    have hnil : s = [] := List.eq_nil_of_length_eq_zero (by omega)
    subst hnil
    rw [tokenize_nil] at ht
    simp at ht
  | succ n ih =>
    intro s hs t ht j
    rcases hocc : findOcc s with _ | i
    · rw [tokenize_none hocc] at ht
      by_cases hnil : s = []
      · subst hnil; simp at ht
      · rw [if_neg hnil] at ht
        rw [List.mem_singleton] at ht
        subst ht
        exact findOcc_none_no_occ hocc j
    · rw [tokenize_some hocc] at ht
      rcases List.mem_cons.mp ht with rfl | hmem
      · cases hp : yamlSeparator.isPrefixOf ((s.take i).drop j) with
        | false => rfl
        | true =>
          obtain ⟨hj, hocc2⟩ := occ_of_take_occ hp
          have hmin := findOcc_some_min hocc j hj
          rw [hmin] at hocc2
          exact Bool.noConfusion hocc2
      · refine ih (s.drop (i + yamlSeparator.length)) ?_ t hmem j
        have h14 : yamlSeparator.length = 14 := yamlSeparator_length
        have hlen : (s.drop (i + yamlSeparator.length)).length =
            s.length - (i + yamlSeparator.length) := List.length_drop _ _
        omega

theorem tokenize_split_at_first {p rest : List Char}
    (h : findOcc (p ++ yamlSeparator ++ rest) = some p.length) :
    tokenize (p ++ yamlSeparator ++ rest) = p :: tokenize rest := by
  have hdrop : (p ++ yamlSeparator ++ rest).drop (p.length + yamlSeparator.length) =
      rest := List.drop_left' (by rw [List.length_append])
  have htake : (p ++ yamlSeparator ++ rest).take p.length = p := by
    rw [List.append_assoc]
    exact List.take_left _ _
  rw [tokenize_some h, hdrop, htake]

theorem tokenize_sep_head (rest : List Char) :
    tokenize (yamlSeparator ++ rest) = [] :: tokenize rest := by
  have h0 : findOcc (yamlSeparator ++ rest) = some 0 :=
    findOcc_of_prefixOf (prefixOf_append_right _ _)
  have hdrop : (yamlSeparator ++ rest).drop (0 + yamlSeparator.length) = rest := by
    rw [Nat.zero_add]
    exact List.drop_left _ _
  rw [tokenize_some h0, hdrop]
  simp

theorem scanWithBound_nil : scanWithBound [] = ([], none) := by
  simp [scanWithBound]

theorem scanWithBound_some {s : List Char} {i : Nat}
    (h : findOcc (s.take maxTokenSize) = some i) :
    scanWithBound s =
      (s.take i :: (scanWithBound (s.drop (i + yamlSeparator.length))).1,
        (scanWithBound (s.drop (i + yamlSeparator.length))).2) := by
  cases s with
  | nil => simp [findOcc] at h
  | cons c rest => rw [scanWithBound, h]

theorem scanWithBound_none_small {s : List Char}
    (h : findOcc (s.take maxTokenSize) = none) (hlen : s.length < maxTokenSize) :
    scanWithBound s = (if s = [] then [] else [s], none) := by
  cases s with
  | nil => simp [scanWithBound]
  | cons c rest =>
    rw [scanWithBound, h, if_pos hlen]
    simp

theorem scanWithBound_none_big {s : List Char}
    (h : findOcc (s.take maxTokenSize) = none) (hlen : maxTokenSize ≤ s.length) :
    scanWithBound s = ([], some errTooLong) := by
  cases s with
  | nil =>
    have hm : maxTokenSize = 1048576 := rfl
    simp at hlen
    omega
  | cons c rest =>
    rw [scanWithBound, h, if_neg (by omega)]

theorem findOcc_take_none {s : List Char} {n : Nat} (h : findOcc s = none) :
    findOcc (s.take n) = none := by
  rcases hw : findOcc (s.take n) with _ | i
  · rfl
  · have hocc := findOcc_some_occ hw
    obtain ⟨-, hp⟩ := occ_of_take_occ hocc
    rw [findOcc_none_no_occ h i] at hp
    exact Bool.noConfusion hp

theorem findOcc_take_sep_head (rest : List Char) :
    findOcc ((yamlSeparator ++ rest).take maxTokenSize) = some 0 := by
  apply findOcc_of_prefixOf
  rw [List.take_append_eq_append_take,
    List.take_of_length_le (show yamlSeparator.length ≤ maxTokenSize by decide)]
  exact prefixOf_append_right _ _

theorem occ_into_take {s : List Char} {n j : Nat}
    (hp : yamlSeparator.isPrefixOf (s.drop j) = true)
    (hj : j + yamlSeparator.length ≤ n) :
    yamlSeparator.isPrefixOf ((s.take n).drop j) = true := by
  obtain ⟨w, hw⟩ := (prefixOf_iff _ _).mp hp
  apply (prefixOf_iff _ _).mpr
  refine ⟨w.take (n - j - yamlSeparator.length), ?_⟩
  rw [List.drop_take, ← hw, List.take_append_eq_append_take,
    List.take_of_length_le (show yamlSeparator.length ≤ n - j by omega)]

theorem findOcc_take_eq {s : List Char} {i : Nat}
    (h : findOcc (s.take maxTokenSize) = some i) : findOcc s = some i := by
  have hlen : (s.take maxTokenSize).length ≤ maxTokenSize := by
    rw [List.length_take]
    omega
  have hbound : i + yamlSeparator.length ≤ maxTokenSize := by
    have hb := findOcc_some_bound h
    omega
  have hocc := findOcc_some_occ h
  obtain ⟨-, hpi⟩ := occ_of_take_occ hocc
  rcases hg : findOcc s with _ | j
  · rw [findOcc_none_no_occ hg i] at hpi
    exact Bool.noConfusion hpi
  · rcases Nat.lt_trichotomy j i with hji | heq | hij
    · have hpj := findOcc_some_occ hg
      have hwj : yamlSeparator.isPrefixOf ((s.take maxTokenSize).drop j) = true :=
        occ_into_take hpj (by omega)
      rw [findOcc_some_min h j hji] at hwj
      exact Bool.noConfusion hwj
    · rw [heq]
    · rw [findOcc_some_min hg i hij] at hpi
      exact Bool.noConfusion hpi

theorem scanWithBound_tokens_in_tokenize :
    ∀ (n : Nat) (s : List Char), s.length ≤ n →
      ∀ t ∈ (scanWithBound s).1, t ∈ tokenize s := by
  intro n
  induction n with
  | zero =>
    intro s hs t ht
    have hnil : s = [] := List.eq_nil_of_length_eq_zero (by omega)
    subst hnil
    rw [scanWithBound_nil] at ht
    simp at ht
  | succ n ih =>
    intro s hs t ht
    rcases hw : findOcc (s.take maxTokenSize) with _ | i
    · by_cases hlen : s.length < maxTokenSize
      · rw [scanWithBound_none_small hw hlen] at ht
        by_cases hnil : s = []
        · subst hnil
          simp at ht
        · rw [if_neg hnil] at ht
          have hseq : s.take maxTokenSize = s := List.take_of_length_le (by omega)
          rw [hseq] at hw
          rw [List.mem_singleton] at ht
          subst ht
          rw [tokenize_none hw, if_neg hnil]
          simp
      · rw [scanWithBound_none_big hw (by omega)] at ht
        simp at ht
    · rw [scanWithBound_some hw] at ht
      have hg := findOcc_take_eq hw
      rw [tokenize_some hg]
      rcases List.mem_cons.mp ht with rfl | hmem
      · exact List.mem_cons_self _ _
      · refine List.mem_cons_of_mem _
          (ih (s.drop (i + yamlSeparator.length)) ?_ t hmem)
        have h14 : yamlSeparator.length = 14 := yamlSeparator_length
        have hld : (s.drop (i + yamlSeparator.length)).length =
            s.length - (i + yamlSeparator.length) := List.length_drop _ _
        omega

theorem lookupFS_set (fs : FS) (p q : List Char) (e : Entry) :
    lookupFS (setFS fs p e) q = if q = p then some e else lookupFS fs q := by
  simp [setFS, lookupFS]

theorem preserves_rfl (fs : FS) : Preserves fs fs := fun _ => Or.inl (Eq.refl _)

theorem preserves_trans {fs1 fs2 fs3 : FS}
    (h1 : Preserves fs1 fs2) (h2 : Preserves fs2 fs3) : Preserves fs1 fs3 := by
  intro q
  rcases h2 q with h | ⟨hn, hd⟩
  · rw [h]
    exact h1 q
  · rcases h1 q with h' | ⟨hn', hd'⟩
    · rw [h'] at hn
      exact Or.inr ⟨hn, hd⟩
    · rw [hd'] at hn
      simp at hn

theorem mkdirEntry_ok_preserves {fs fs' : FS} {p : List Char}
    (h : mkdirEntry fs p = .ok fs') : Preserves fs fs' := by
  intro q
  unfold mkdirEntry at h
  rcases hl : lookupFS fs p with _ | e
  · rw [hl] at h
    simp only [Except.ok.injEq] at h
    subst h
    rw [lookupFS_set]
    by_cases hq : q = p
    · subst hq
      exact Or.inr ⟨hl, by simp⟩
    · rw [if_neg hq]
      exact Or.inl rfl
  · cases e with
    | file content => rw [hl] at h; simp at h
    | dir =>
      rw [hl] at h
      simp only [Except.ok.injEq] at h
      subst h
      exact Or.inl rfl

theorem mkdirAllAux_ok_preserves :
    ∀ (fuel : Nat) (fs : FS) (p : List Char) (fs' : FS),
      mkdirAllAux fuel fs p = .ok fs' → Preserves fs fs' := by
  intro fuel
  induction fuel with
  | zero =>
    intro fs p fs' h
    simp only [mkdirAllAux, Except.ok.injEq] at h
    subst h
    exact preserves_rfl fs
  | succ n ih =>
    intro fs p fs' h
    simp only [mkdirAllAux] at h
    by_cases hp : pathDir p = p
    · rw [if_pos hp] at h
      exact mkdirEntry_ok_preserves h
    · rw [if_neg hp] at h
      split at h
      · simp at h
      · next fs1 hm =>
        exact preserves_trans (ih fs (pathDir p) fs1 hm) (mkdirEntry_ok_preserves h)

theorem mkdirAll_ok_preserves {fs fs' : FS} {p : List Char}
    (h : mkdirAll fs p = .ok fs') : Preserves fs fs' :=
  mkdirAllAux_ok_preserves _ fs p fs' h

theorem writeOrAppend_create {fs fs' : FS} {root source content : List Char}
    (hnone : lookupFS fs (pathJoin root source) = none)
    (hok : writeOrAppendSpec fs root source content = .ok fs') :
    lookupFS fs' (pathJoin root source) = some (.file content) := by
  simp only [writeOrAppendSpec] at hok
  split at hok
  · simp at hok
  · next fs1 hm =>
    split at hok
    · simp only [Except.ok.injEq] at hok
      subst hok
      rw [lookupFS_set, if_pos rfl]
    · next old hl =>
      rcases mkdirAll_ok_preserves hm (pathJoin root source) with hsame | ⟨_, hdir⟩
      · rw [hl, hnone] at hsame
        simp at hsame
      · rw [hl] at hdir
        simp at hdir
    · simp at hok

theorem writeOrAppend_append {fs fs' : FS} {root source content old : List Char}
    (hold : lookupFS fs (pathJoin root source) = some (.file old))
    (hok : writeOrAppendSpec fs root source content = .ok fs') :
    lookupFS fs' (pathJoin root source) =
      some (.file (old ++ sepFor content ++ content)) := by
  simp only [writeOrAppendSpec] at hok
  split at hok
  · simp at hok
  · next fs1 hm =>
    split at hok
    · next hl =>
      rcases mkdirAll_ok_preserves hm (pathJoin root source) with hsame | ⟨hn, _⟩
      · rw [hl, hold] at hsame
        simp at hsame
      · rw [hold] at hn
        simp at hn
    · next old' hl =>
      have hsame : old' = old := by
        rcases mkdirAll_ok_preserves hm (pathJoin root source) with hsame | ⟨hn, _⟩
        · rw [hl, hold] at hsame
          simpa using hsame
        · rw [hold] at hn
          simp at hn
      subst hsame
      simp only [Except.ok.injEq] at hok
      subst hok
      rw [lookupFS_set, if_pos rfl]
    · simp at hok

theorem writeOrAppend_dir_error {fs fs' : FS} {root source content : List Char}
    (hdir : lookupFS fs (pathJoin root source) = some .dir)
    (hok : writeOrAppendSpec fs root source content = .ok fs') : False := by
  simp only [writeOrAppendSpec] at hok
  split at hok
  · simp at hok
  · next fs1 hm =>
    split at hok
    · next hl =>
      rcases mkdirAll_ok_preserves hm (pathJoin root source) with hsame | ⟨hn, _⟩
      · rw [hl, hdir] at hsame
        simp at hsame
      · rw [hdir] at hn
        simp at hn
    · next old' hl =>
      rcases mkdirAll_ok_preserves hm (pathJoin root source) with hsame | ⟨hn, _⟩
      · rw [hl, hdir] at hsame
        simp at hsame
      · rw [hdir] at hn
        simp at hn
    · simp at hok

theorem writeOrAppend_frame {fs fs' : FS} {root source content q : List Char}
    (hq : q ≠ pathJoin root source)
    (hok : writeOrAppendSpec fs root source content = .ok fs') :
    lookupFS fs' q = lookupFS fs q ∨
      (lookupFS fs q = none ∧ lookupFS fs' q = some .dir) := by
  simp only [writeOrAppendSpec] at hok
  split at hok
  · simp at hok
  · next fs1 hm =>
    have hpres := mkdirAll_ok_preserves hm
    split at hok
    · simp only [Except.ok.injEq] at hok
      subst hok
      rw [lookupFS_set, if_neg hq]
      exact hpres q
    · simp only [Except.ok.injEq] at hok
      subst hok
      rw [lookupFS_set, if_neg hq]
      exact hpres q
    · simp at hok

theorem processRecords_nil (root : List Char) (fs : FS) :
    processRecords root fs [] = ⟨fs, [], none⟩ := rfl

theorem processRecords_skip_eq {root : List Char} {fs : FS} {r : List Char}
    (rest : List (List Char)) (h : (splitSpec r).1 = []) :
    processRecords root fs (r :: rest) =
      ⟨(processRecords root fs rest).fs,
        warnSkip :: (processRecords root fs rest).warnings,
        (processRecords root fs rest).err⟩ := by
  simp [processRecords, h]

theorem processRecords_write_ok {root : List Char} {fs fs1 : FS} {r : List Char}
    (rest : List (List Char)) (h : (splitSpec r).1 ≠ [])
    (hok : writeOrAppendSpec fs root (splitSpec r).1 (splitSpec r).2 = .ok fs1) :
    processRecords root fs (r :: rest) = processRecords root fs1 rest := by
  simp [processRecords, h, hok]

theorem processRecords_write_err {root : List Char} {fs : FS} {r : List Char}
    {e : String} (rest : List (List Char)) (h : (splitSpec r).1 ≠ [])
    (herr : writeOrAppendSpec fs root (splitSpec r).1 (splitSpec r).2 = .error e) :
    processRecords root fs (r :: rest) = ⟨fs, [], some e⟩ := by
  simp [processRecords, h, herr]

theorem processRecords_append_ok {root : List Char} :
    ∀ (xs ys : List (List Char)) (fs fs1 : FS) (ws : List String),
      processRecords root fs xs = ⟨fs1, ws, none⟩ →
      processRecords root fs (xs ++ ys) =
        ⟨(processRecords root fs1 ys).fs,
          ws ++ (processRecords root fs1 ys).warnings,
          (processRecords root fs1 ys).err⟩ := by
  intro xs
  induction xs with
  | nil =>
    intro ys fs fs1 ws h
    rw [processRecords_nil] at h
    simp only [RunResult.mk.injEq] at h
    obtain ⟨rfl, rfl, -⟩ := h
    simp
  | cons r xs ih =>
    intro ys fs fs1 ws h
    by_cases hsrc : (splitSpec r).1 = []
    · rw [processRecords_skip_eq xs hsrc] at h
      rcases hR : processRecords root fs xs with ⟨fs2, ws2, err2⟩
      rw [hR] at h
      simp only [RunResult.mk.injEq] at h
      obtain ⟨rfl, rfl, herr2⟩ := h
      subst herr2
      rw [List.cons_append, processRecords_skip_eq (xs ++ ys) hsrc,
        ih ys fs fs2 ws2 hR]
      simp
    · rcases hw : writeOrAppendSpec fs root (splitSpec r).1 (splitSpec r).2 with e | fs2
      · rw [processRecords_write_err xs hsrc hw] at h
        simp at h
      · rw [processRecords_write_ok xs hsrc hw] at h
        rw [List.cons_append, processRecords_write_ok (xs ++ ys) hsrc hw]
        exact ih ys fs2 fs1 ws h

theorem processRecords_append_err {root : List Char} :
    ∀ (xs ys : List (List Char)) (fs fs1 : FS) (ws : List String) (e : String),
      processRecords root fs xs = ⟨fs1, ws, some e⟩ →
      processRecords root fs (xs ++ ys) = ⟨fs1, ws, some e⟩ := by
  intro xs
  induction xs with
  | nil =>
    intro ys fs fs1 ws e h
    rw [processRecords_nil] at h
    simp at h
  | cons r xs ih =>
    intro ys fs fs1 ws e h
    by_cases hsrc : (splitSpec r).1 = []
    · rw [processRecords_skip_eq xs hsrc] at h
      rcases hR : processRecords root fs xs with ⟨fs2, ws2, err2⟩
      rw [hR] at h
      simp only [RunResult.mk.injEq] at h
      obtain ⟨rfl, rfl, herr2⟩ := h
      subst herr2
      rw [List.cons_append, processRecords_skip_eq (xs ++ ys) hsrc,
        ih ys fs fs2 ws2 e hR]
    · rcases hw : writeOrAppendSpec fs root (splitSpec r).1 (splitSpec r).2 with e' | fs2
      · rw [processRecords_write_err xs hsrc hw] at h
        simp only [RunResult.mk.injEq] at h
        obtain ⟨rfl, rfl, herr⟩ := h
        rw [List.cons_append, processRecords_write_err (xs ++ ys) hsrc hw]
        rw [herr]
      · rw [processRecords_write_ok xs hsrc hw] at h
        rw [List.cons_append, processRecords_write_ok (xs ++ ys) hsrc hw]
        exact ih ys fs2 fs1 ws e h

theorem processRecords_no_hit_some {root d : List Char} {e : Entry} :
    ∀ (recs : List (List Char)) (fs : FS),
      (∀ r ∈ recs, ¬ hits root d r) →
      lookupFS fs d = some e →
      lookupFS (processRecords root fs recs).fs d = some e := by
  intro recs
  induction recs with
  | nil =>
    intro fs _ h
    rw [processRecords_nil]
    exact h
  | cons r rest ih =>
    intro fs hno hsome
    have hnr : ¬ hits root d r := hno r (List.mem_cons_self r rest)
    have hrest : ∀ r' ∈ rest, ¬ hits root d r' :=
      fun r' hr' => hno r' (List.mem_cons_of_mem r hr')
    by_cases hsrc : (splitSpec r).1 = []
    · rw [processRecords_skip_eq rest hsrc]
      exact ih fs hrest hsome
    · have hd : d ≠ pathJoin root (splitSpec r).1 := by
        intro hEq
        exact hnr ⟨hsrc, hEq.symm⟩
      rcases hw : writeOrAppendSpec fs root (splitSpec r).1 (splitSpec r).2
        with e' | fs2
      · rw [processRecords_write_err rest hsrc hw]
        exact hsome
      · rw [processRecords_write_ok rest hsrc hw]
        rcases writeOrAppend_frame hd hw with hsame | ⟨hn, _⟩
        · exact ih fs2 hrest (hsame.trans hsome)
        · rw [hsome] at hn
          simp at hn

theorem processRecords_no_hit_none {root d : List Char} :
    ∀ (recs : List (List Char)) (fs : FS),
      (∀ r ∈ recs, ¬ hits root d r) →
      lookupFS fs d = none →
      lookupFS (processRecords root fs recs).fs d = none ∨
        lookupFS (processRecords root fs recs).fs d = some .dir := by
  intro recs
  induction recs with
  | nil =>
    intro fs _ h
    rw [processRecords_nil]
    exact Or.inl h
  | cons r rest ih =>
    intro fs hno hnone
    have hnr : ¬ hits root d r := hno r (List.mem_cons_self r rest)
    have hrest : ∀ r' ∈ rest, ¬ hits root d r' :=
      fun r' hr' => hno r' (List.mem_cons_of_mem r hr')
    by_cases hsrc : (splitSpec r).1 = []
    · rw [processRecords_skip_eq rest hsrc]
      exact ih fs hrest hnone
    · have hd : d ≠ pathJoin root (splitSpec r).1 := by
        intro hEq
        exact hnr ⟨hsrc, hEq.symm⟩
      rcases hw : writeOrAppendSpec fs root (splitSpec r).1 (splitSpec r).2
        with e' | fs2
      · rw [processRecords_write_err rest hsrc hw]
        exact Or.inl hnone
      · rw [processRecords_write_ok rest hsrc hw]
        rcases writeOrAppend_frame hd hw with hsame | ⟨_, hdir⟩
        · exact ih fs2 hrest (hsame.trans hnone)
        · exact Or.inr (processRecords_no_hit_some rest fs2 hrest hdir)

/-- C5: no Record emitted by the tokenizer contains an occurrence of the
delimiter string `"---\n# Source: "` as a substring; every delimiter
occurrence is consumed as a boundary. -/
theorem tokenize_token_no_delimiter {s t : List Char} (ht : t ∈ tokenize s) :
    ¬ ∃ u v, u ++ yamlSeparator ++ v = t := by
  intro hcon
  obtain ⟨j, hj⟩ := (occ_iff_contains t).mpr hcon
  have hfalse := tokenize_no_occ_aux s.length s (Nat.le_refl _) t ht j
  rw [hfalse] at hj
  exact Bool.noConfusion hj

theorem tokenize_token_no_delimiter_witness :
    (['a', '\n', 'x'] : List Char) ∈ tokenize (yamlSeparator ++ ['a', '\n', 'x']) ∧
      ¬ ∃ u v, u ++ yamlSeparator ++ v = (['a', '\n', 'x'] : List Char) := by
  have hmem : (['a', '\n', 'x'] : List Char) ∈
      tokenize (yamlSeparator ++ ['a', '\n', 'x']) := by
    rw [tokenize_sep_head]
    have hn : findOcc ['a', '\n', 'x'] = none := by decide
    rw [tokenize_none hn]
    simp
  exact ⟨hmem, tokenize_token_no_delimiter hmem⟩

/-- C4: the bytes preceding the first delimiter occurrence never influence
the run: whenever the preamble Record is actually yielded by the bounded
scanner (its terminating delimiter occurrence lies inside the 1 MiB
window), the run equals the run on the same input with the preamble
removed — including any later scanner failure or writer error — so the
preamble bytes are never written to any output file. -/
theorem preamble_not_processed (root : List Char) (fs : FS) (p rest : List Char)
    (h : findOcc ((p ++ yamlSeparator ++ rest).take maxTokenSize) =
      some p.length) :
    processInput root fs (p ++ yamlSeparator ++ rest) =
      processInput root fs (yamlSeparator ++ rest) := by
  have hd1 : (p ++ yamlSeparator ++ rest).drop (p.length + yamlSeparator.length) =
      rest := List.drop_left' (by rw [List.length_append])
  have ht1 : (p ++ yamlSeparator ++ rest).take p.length = p := by
    rw [List.append_assoc]
    exact List.take_left _ _
  have hs1 := scanWithBound_some h
  rw [hd1, ht1] at hs1
  have hs2 := scanWithBound_some (findOcc_take_sep_head rest)
  have hd2 : (yamlSeparator ++ rest).drop (0 + yamlSeparator.length) = rest := by
    rw [Nat.zero_add]
    exact List.drop_left _ _
  rw [hd2] at hs2
  simp only [List.take_zero] at hs2
  simp only [processInput, hs1, hs2]

theorem preamble_not_processed_witness :
    findOcc (((['p', 'r', 'e'] ++ yamlSeparator ++ ['a', '\n', 'x']) :
        List Char).take maxTokenSize) = some (['p', 'r', 'e'] : List Char).length ∧
      processInput ['o', 'u', 't'] []
          (['p', 'r', 'e'] ++ yamlSeparator ++ ['a', '\n', 'x']) =
        processInput ['o', 'u', 't'] [] (yamlSeparator ++ ['a', '\n', 'x']) :=
  ⟨by decide,
    preamble_not_processed ['o', 'u', 't'] [] ['p', 'r', 'e'] ['a', '\n', 'x']
      (by decide)⟩

/-- C6 (amended): on an input with zero delimiter occurrences the run
writes zero files; when the input is shorter than the scanner's 1 MiB
token limit the run completes successfully, with the warning reported
exactly when the input is empty; at or above the limit the run fails with
the wrapped `bufio.ErrTooLong` read error, still having written nothing. -/
theorem no_delimiter_zero_files (root : List Char) (fs : FS) (input : List Char)
    (h : findOcc input = none) :
    (processInput root fs input).fs = fs ∧
      (input.length < maxTokenSize →
        (processInput root fs input).err = none ∧
        (processInput root fs input).warnings =
          (if input = [] then [warnEmpty] else [])) ∧
      (maxTokenSize ≤ input.length →
        (processInput root fs input).err = some (readErrPrefix ++ errTooLong) ∧
        (processInput root fs input).warnings = []) := by
  have hw : findOcc (input.take maxTokenSize) = none := findOcc_take_none h
  by_cases hnil : input = []
  · subst hnil
    have heval : processInput root fs [] = ⟨fs, [warnEmpty], none⟩ := by
      simp [processInput, scanWithBound_nil]
    rw [heval]
    refine ⟨rfl, fun _ => ⟨rfl, by simp⟩, fun hbig => ?_⟩
    have hm : maxTokenSize = 1048576 := rfl
    simp at hbig
    omega
  · by_cases hlen : input.length < maxTokenSize
    · have hs : scanWithBound input = ([input], none) := by
        rw [scanWithBound_none_small hw hlen, if_neg hnil]
      have heval : processInput root fs input = ⟨fs, [], none⟩ := by
        simp [processInput, hs, processRecords_nil]
      rw [heval]
      exact ⟨rfl, fun _ => ⟨rfl, by simp [hnil]⟩, fun hbig => by omega⟩
    · have hs : scanWithBound input = ([], some errTooLong) :=
        scanWithBound_none_big hw (by omega)
      have heval : processInput root fs input =
          ⟨fs, [], some (readErrPrefix ++ errTooLong)⟩ := by
        simp [processInput, hs]
      rw [heval]
      exact ⟨rfl, fun hsmall => by omega, fun _ => ⟨rfl, rfl⟩⟩

theorem no_delimiter_zero_files_witness :
    findOcc ['x', 'y'] = none ∧
      (['x', 'y'] : List Char).length < maxTokenSize ∧
      (processInput ['o'] [] ['x', 'y']).fs = [] ∧
      (processInput ['o'] [] ['x', 'y']).err = none ∧
      (processInput ['o'] [] ['x', 'y']).warnings =
        (if (['x', 'y'] : List Char) = [] then [warnEmpty] else []) :=
  ⟨by decide, by decide,
    (no_delimiter_zero_files ['o'] [] ['x', 'y'] (by decide)).1,
    ((no_delimiter_zero_files ['o'] [] ['x', 'y'] (by decide)).2.1 (by decide)).1,
    ((no_delimiter_zero_files ['o'] [] ['x', 'y'] (by decide)).2.1 (by decide)).2⟩

/-- C6 counterexample: a nonempty delimiter-free input below the token
limit completes successfully and writes nothing, but produces NO warning —
the claim that the zero-delimiter condition is always reported as a
warning fails on such inputs. -/
theorem no_delimiter_warning_cex :
    findOcc ['a', 'b', 'c'] = none ∧
      (processInput ['o', 'u', 't'] [] ['a', 'b', 'c']).err = none ∧
      (processInput ['o', 'u', 't'] [] ['a', 'b', 'c']).fs = [] ∧
      (processInput ['o', 'u', 't'] [] ['a', 'b', 'c']).warnings = [] := by
  have h : findOcc ['a', 'b', 'c'] = none := by decide
  have hw : findOcc ((['a', 'b', 'c'] : List Char).take maxTokenSize) = none := by
    decide
  have hs : scanWithBound ['a', 'b', 'c'] = ([['a', 'b', 'c']], none) := by
    rw [scanWithBound_none_small hw (by decide)]
    simp
  refine ⟨h, ?_, ?_, ?_⟩ <;> simp [processInput, hs, processRecords_nil]

/-- C7 (amended): for every Record that contains at least one newline,
splitting it at its first newline and rejoining source and content with a
newline reproduces the original Record exactly. -/
theorem splitSpec_roundtrip {record : List Char} (h : '\n' ∈ record) :
    (splitSpec record).1 ++ '\n' :: (splitSpec record).2 = record := by
  induction record with
  | nil => simp at h
  | cons c rest ih =>
    by_cases hc : c = '\n'
    · subst hc
      simp [splitSpec]
    · have hr : '\n' ∈ rest := by
        rcases List.mem_cons.mp h with h1 | h1
        · exact absurd h1.symm hc
        · exact h1
      simp only [splitSpec, if_neg hc]
      simp [ih hr]

theorem splitSpec_roundtrip_witness :
    '\n' ∈ (['a', '\n', 'b'] : List Char) ∧
      (splitSpec ['a', '\n', 'b']).1 ++ '\n' :: (splitSpec ['a', '\n', 'b']).2 =
        ['a', '\n', 'b'] :=
  ⟨by decide, splitSpec_roundtrip (by decide)⟩

/-- C7 counterexample: a Record with no newline does not round-trip —
rejoining appends a newline that was not in the original Record. -/
theorem splitSpec_roundtrip_cex :
    (splitSpec ['a']).1 ++ '\n' :: (splitSpec ['a']).2 ≠ ['a'] := by decide

/-- C9: a Record whose derived source path is empty is skipped with a
warning, writes no file, and processing continues with the remaining
Records starting from the unchanged filesystem. -/
theorem empty_source_skipped (root : List Char) (fs : FS) (r : List Char)
    (rest : List (List Char)) (h : (splitSpec r).1 = []) :
    processRecords root fs (r :: rest) =
      ⟨(processRecords root fs rest).fs,
        warnSkip :: (processRecords root fs rest).warnings,
        (processRecords root fs rest).err⟩ := by
  simp [processRecords, h]

theorem empty_source_skipped_witness :
    (splitSpec ['\n', 'a']).1 = [] ∧
      processRecords ['o'] [] [['\n', 'a']] =
        ⟨(processRecords ['o'] [] []).fs,
          warnSkip :: (processRecords ['o'] [] []).warnings,
          (processRecords ['o'] [] []).err⟩ :=
  ⟨by decide, empty_source_skipped ['o'] [] ['\n', 'a'] [] (by decide)⟩

/-- C2: in the append case the separator placed before the new content is
the document marker `"\n---\n"` exactly when the incoming content ends
with a newline, and `"\n\n---\n"` (an extra leading newline) exactly when
it does not; the choice is a function of the incoming content alone. -/
theorem append_separator_incoming (fs fs' : FS) (root source content old : List Char)
    (hold : lookupFS fs (pathJoin root source) = some (.file old))
    (hok : writeOrAppendSpec fs root source content = .ok fs') :
    lookupFS fs' (pathJoin root source) =
      some (.file (old ++ sepFor content ++ content)) ∧
      (sepFor content = baseSeparator ↔ hasTrailingNewline content = true) ∧
      (sepFor content = '\n' :: baseSeparator ↔
        hasTrailingNewline content = false) := by
  refine ⟨writeOrAppend_append hold hok, ?_, ?_⟩
  · cases h : hasTrailingNewline content with
    | true => simp only [sepFor, h]; decide
    | false => simp only [sepFor, h]; decide
  · cases h : hasTrailingNewline content with
    | true => simp only [sepFor, h]; decide
    | false => simp only [sepFor, h]; decide

theorem append_separator_incoming_witness :
    lookupFS [(['o', '/', 'a'], Entry.file ['x', '\n'])]
        (pathJoin ['o'] ['a']) = some (.file ['x', '\n']) ∧
      writeOrAppendSpec [(['o', '/', 'a'], Entry.file ['x', '\n'])]
          ['o'] ['a'] ['y'] =
        .ok [(['o', '/', 'a'],
              Entry.file ['x', '\n', '\n', '\n', '-', '-', '-', '\n', 'y']),
             (['o'], Entry.dir), (['.'], Entry.dir),
             (['o', '/', 'a'], Entry.file ['x', '\n'])] ∧
      (lookupFS [(['o', '/', 'a'],
              Entry.file ['x', '\n', '\n', '\n', '-', '-', '-', '\n', 'y']),
             (['o'], Entry.dir), (['.'], Entry.dir),
             (['o', '/', 'a'], Entry.file ['x', '\n'])] (pathJoin ['o'] ['a']) =
          some (.file (['x', '\n'] ++ sepFor ['y'] ++ ['y'])) ∧
        (sepFor ['y'] = baseSeparator ↔ hasTrailingNewline ['y'] = true) ∧
        (sepFor ['y'] = '\n' :: baseSeparator ↔
          hasTrailingNewline ['y'] = false)) :=
  ⟨by decide, by decide,
    append_separator_incoming [(['o', '/', 'a'], Entry.file ['x', '\n'])]
      [(['o', '/', 'a'], Entry.file ['x', '\n', '\n', '\n', '-', '-', '-', '\n', 'y']),
       (['o'], Entry.dir), (['.'], Entry.dir),
       (['o', '/', 'a'], Entry.file ['x', '\n'])]
      ['o'] ['a'] ['y'] ['x', '\n'] (by decide) (by decide)⟩

/-- C3 (amended): the marker written between merged documents is
`"\n---\n"`, with the extra leading newline inserted exactly when the
NEWLY APPENDED content lacks a trailing newline; the previously-written
bytes are never inspected. -/
theorem append_marker_new_content (fs fs' : FS) (root source content old : List Char)
    (hold : lookupFS fs (pathJoin root source) = some (.file old))
    (hok : writeOrAppendSpec fs root source content = .ok fs') :
    lookupFS fs' (pathJoin root source) =
      some (.file (old ++
        (if hasTrailingNewline content then baseSeparator
         else '\n' :: baseSeparator) ++ content)) :=
  writeOrAppend_append hold hok

theorem append_marker_new_content_witness :
    lookupFS [(['o', '/', 'a'], Entry.file ['x', '\n'])]
        (pathJoin ['o'] ['a']) = some (.file ['x', '\n']) ∧
      writeOrAppendSpec [(['o', '/', 'a'], Entry.file ['x', '\n'])]
          ['o'] ['a'] ['y', '\n'] =
        .ok [(['o', '/', 'a'],
              Entry.file ['x', '\n', '\n', '-', '-', '-', '\n', 'y', '\n']),
             (['o'], Entry.dir), (['.'], Entry.dir),
             (['o', '/', 'a'], Entry.file ['x', '\n'])] ∧
      lookupFS [(['o', '/', 'a'],
              Entry.file ['x', '\n', '\n', '-', '-', '-', '\n', 'y', '\n']),
             (['o'], Entry.dir), (['.'], Entry.dir),
             (['o', '/', 'a'], Entry.file ['x', '\n'])] (pathJoin ['o'] ['a']) =
        some (.file (['x', '\n'] ++
          (if hasTrailingNewline ['y', '\n'] then baseSeparator
           else '\n' :: baseSeparator) ++ ['y', '\n'])) :=
  ⟨by decide, by decide,
    append_marker_new_content [(['o', '/', 'a'], Entry.file ['x', '\n'])]
      [(['o', '/', 'a'], Entry.file ['x', '\n', '\n', '-', '-', '-', '\n', 'y', '\n']),
       (['o'], Entry.dir), (['.'], Entry.dir),
       (['o', '/', 'a'], Entry.file ['x', '\n'])]
      ['o'] ['a'] ['y', '\n'] ['x', '\n'] (by decide) (by decide)⟩

/-- C3 counterexample: the previously-written content `"x\n"` ends with a
newline, yet the code writes the doubled marker `"\n\n---\n"` because the
incoming content `"y"` lacks a trailing newline — the marker choice does
not follow the previously-written content as the claim states. -/
theorem append_marker_previous_cex :
    hasTrailingNewline ['x', '\n'] = true ∧
      writeOrAppendSpec [(['o', '/', 'a'], Entry.file ['x', '\n'])]
          ['o'] ['a'] ['y'] =
        .ok [(['o', '/', 'a'],
              Entry.file ['x', '\n', '\n', '\n', '-', '-', '-', '\n', 'y']),
             (['o'], Entry.dir), (['.'], Entry.dir),
             (['o', '/', 'a'], Entry.file ['x', '\n'])] ∧
      (['x', '\n', '\n', '\n', '-', '-', '-', '\n', 'y'] : List Char) ≠
        ['x', '\n'] ++ baseSeparator ++ ['y'] := by decide

/-- C8: a Spec Writer error aborts the run at once: the result carries the
filesystem and warnings accumulated before the failing Record together
with the error, and the Records after the failing one are never processed
(the result does not depend on them). -/
theorem writer_error_aborts (root : List Char) (fs fs1 : FS) (ws : List String)
    (pre : List (List Char)) (r : List Char) (rest : List (List Char)) (e : String)
    (hpre : processRecords root fs pre = ⟨fs1, ws, none⟩)
    (hsrc : (splitSpec r).1 ≠ [])
    (herr : writeOrAppendSpec fs1 root (splitSpec r).1 (splitSpec r).2 = .error e) :
    processRecords root fs (pre ++ r :: rest) = ⟨fs1, ws, some e⟩ := by
  rw [processRecords_append_ok pre (r :: rest) fs fs1 ws hpre,
    processRecords_write_err rest hsrc herr]
  simp

theorem writer_error_aborts_witness :
    processRecords ['o'] [(['o', '/', 'a'], Entry.dir)] [] =
        ⟨[(['o', '/', 'a'], Entry.dir)], [], none⟩ ∧
      (splitSpec ['a', '\n', 'c']).1 ≠ [] ∧
      writeOrAppendSpec [(['o', '/', 'a'], Entry.dir)] ['o']
          (splitSpec ['a', '\n', 'c']).1 (splitSpec ['a', '\n', 'c']).2 =
        .error "open: is a directory" ∧
      processRecords ['o'] [(['o', '/', 'a'], Entry.dir)]
          ([] ++ ['a', '\n', 'c'] :: [['b', '\n', 'z']]) =
        ⟨[(['o', '/', 'a'], Entry.dir)], [], some "open: is a directory"⟩ :=
  ⟨by decide, by decide, by decide,
    writer_error_aborts ['o'] [(['o', '/', 'a'], Entry.dir)]
      [(['o', '/', 'a'], Entry.dir)] [] [] ['a', '\n', 'c'] [['b', '\n', 'z']]
      "open: is a directory" (by decide) (by decide) (by decide)⟩

/-- C10: the destination is the cleaned join of the output root and the
source path with no containment check; the source path `"../evil"`
resolves to `"evil"`, which is outside the root `"out"`, and the Spec is
written there. -/
theorem no_containment_check :
    pathJoin ['o', 'u', 't'] ['.', '.', '/', 'e', 'v', 'i', 'l'] =
        ['e', 'v', 'i', 'l'] ∧
      (['o', 'u', 't', '/'] : List Char).isPrefixOf ['e', 'v', 'i', 'l'] = false ∧
      (['e', 'v', 'i', 'l'] : List Char) ≠ ['o', 'u', 't'] ∧
      writeOrAppendSpec [] ['o', 'u', 't'] ['.', '.', '/', 'e', 'v', 'i', 'l'] ['c'] =
        .ok [(['e', 'v', 'i', 'l'], .file ['c']), (['.'], .dir)] := by decide

/-- C1: when exactly two Records of a successful run target destination
`d` — first `r1`, then `r2`, in input order — and `d` is initially
absent, the final file at `d` holds `content1 ++ separator ++ content2`,
the separator chosen by the incoming-content trailing-newline rule. -/
theorem same_path_final_content
    (root d : List Char) (fs fs' : FS) (ws : List String)
    (pre mid post : List (List Char)) (r1 r2 : List Char)
    (h1 : hits root d r1) (h2 : hits root d r2)
    (hpre : ∀ r ∈ pre, ¬ hits root d r)
    (hmid : ∀ r ∈ mid, ¬ hits root d r)
    (hpost : ∀ r ∈ post, ¬ hits root d r)
    (h0 : lookupFS fs d = none)
    (hrun : processRecords root fs (pre ++ r1 :: (mid ++ r2 :: post)) =
      ⟨fs', ws, none⟩) :
    lookupFS fs' d =
      some (.file ((splitSpec r1).2 ++ sepFor (splitSpec r2).2 ++
        (splitSpec r2).2)) := by
  rcases hA : processRecords root fs pre with ⟨fsA, wsA, errA⟩
  rcases errA with _ | e
  · rw [processRecords_append_ok pre (r1 :: (mid ++ r2 :: post)) fs fsA wsA hA]
      at hrun
    simp only [RunResult.mk.injEq] at hrun
    obtain ⟨hfs', hws', herr'⟩ := hrun
    have hAd : lookupFS fsA d = none ∨ lookupFS fsA d = some .dir := by
      have hfr := processRecords_no_hit_none pre fs hpre h0
      rw [hA] at hfr
      exact hfr
    rcases hw1 : writeOrAppendSpec fsA root (splitSpec r1).1 (splitSpec r1).2
      with e1 | fsB
    · rw [processRecords_write_err (mid ++ r2 :: post) h1.1 hw1] at herr'
      simp at herr'
    · rw [processRecords_write_ok (mid ++ r2 :: post) h1.1 hw1] at hfs' herr'
      have hAnone : lookupFS fsA d = none := by
        rcases hAd with h | h
        · exact h
        · rw [← h1.2] at h
          exact (writeOrAppend_dir_error h hw1).elim
      have hB : lookupFS fsB d = some (.file (splitSpec r1).2) := by
        rw [← h1.2] at hAnone ⊢
        exact writeOrAppend_create hAnone hw1
      rcases hC : processRecords root fsB mid with ⟨fsC, wsC, errC⟩
      rcases errC with _ | e
      · rw [processRecords_append_ok mid (r2 :: post) fsB fsC wsC hC]
          at hfs' herr'
        dsimp only at hfs' herr'
        have hCkeep : lookupFS fsC d = some (.file (splitSpec r1).2) := by
          have hfr := processRecords_no_hit_some mid fsB hmid hB
          rw [hC] at hfr
          exact hfr
        rcases hw2 : writeOrAppendSpec fsC root (splitSpec r2).1 (splitSpec r2).2
          with e2 | fsD
        · rw [processRecords_write_err post h2.1 hw2] at herr'
          simp at herr'
        · rw [processRecords_write_ok post h2.1 hw2] at hfs' herr'
          have hD : lookupFS fsD d =
              some (.file ((splitSpec r1).2 ++ sepFor (splitSpec r2).2 ++
                (splitSpec r2).2)) := by
            rw [← h2.2] at hCkeep ⊢
            exact writeOrAppend_append hCkeep hw2
          have hE := processRecords_no_hit_some post fsD hpost hD
          rw [hfs'] at hE
          exact hE
      · rw [processRecords_append_err mid (r2 :: post) fsB fsC wsC e hC] at herr'
        simp at herr'
  · rw [processRecords_append_err pre (r1 :: (mid ++ r2 :: post)) fs fsA wsA e hA]
      at hrun
    simp at hrun

theorem same_path_final_content_witness :
    hits ['o', 'u', 't'] ['o', 'u', 't', '/', 'a'] ['a', '\n', 'x', '\n'] ∧
      hits ['o', 'u', 't'] ['o', 'u', 't', '/', 'a'] ['a', '\n', 'y', '\n'] ∧
      (∀ r ∈ ([] : List (List Char)), ¬ hits ['o', 'u', 't'] ['o', 'u', 't', '/', 'a'] r) ∧
      lookupFS [] ['o', 'u', 't', '/', 'a'] = none ∧
      processRecords ['o', 'u', 't'] []
          ([] ++ ['a', '\n', 'x', '\n'] :: ([] ++ ['a', '\n', 'y', '\n'] :: [])) =
        ⟨[(['o', 'u', 't', '/', 'a'],
            Entry.file ['x', '\n', '\n', '-', '-', '-', '\n', 'y', '\n']),
          (['o', 'u', 't', '/', 'a'], Entry.file ['x', '\n']),
          (['o', 'u', 't'], Entry.dir), (['.'], Entry.dir)], [], none⟩ ∧
      lookupFS [(['o', 'u', 't', '/', 'a'],
            Entry.file ['x', '\n', '\n', '-', '-', '-', '\n', 'y', '\n']),
          (['o', 'u', 't', '/', 'a'], Entry.file ['x', '\n']),
          (['o', 'u', 't'], Entry.dir), (['.'], Entry.dir)]
          ['o', 'u', 't', '/', 'a'] =
        some (.file ((splitSpec ['a', '\n', 'x', '\n']).2 ++
          sepFor (splitSpec ['a', '\n', 'y', '\n']).2 ++
          (splitSpec ['a', '\n', 'y', '\n']).2)) :=
  ⟨by decide, by decide, by decide, by decide, by decide,
    same_path_final_content ['o', 'u', 't'] ['o', 'u', 't', '/', 'a'] []
      [(['o', 'u', 't', '/', 'a'],
          Entry.file ['x', '\n', '\n', '-', '-', '-', '\n', 'y', '\n']),
        (['o', 'u', 't', '/', 'a'], Entry.file ['x', '\n']),
        (['o', 'u', 't'], Entry.dir), (['.'], Entry.dir)] []
      [] [] [] ['a', '\n', 'x', '\n'] ['a', '\n', 'y', '\n']
      (by decide) (by decide) (by decide) (by decide) (by decide) (by decide)
      (by decide)⟩

end Schelm
